import Mathlib

/-!
# Verification of the parallel OD Cost Matrix orchestration layer

A shallow embedding of `parallel_odcm.py` (transit-network-analysis-tools):
the ObjectID range partitioner `_get_oid_ranges_for_input`, the tail of
`ODCostMatrix.solve` (job-outcome construction), the scheduler loop of
`solve_od_in_parallel` (result gathering, success bucketing, sorting of the
successful result-file list, post-processing dispatch), and the two
aggregators `_calculate_accessibility_matrix_outputs` and
`_calculate_travel_time_statistics_outputs`.

Dataframes are modelled as lists of rows; `pandas` group-by-and-sum is
modelled by an explicit key-grouping function (key order is first-occurrence
order rather than pandas' sorted order; no claim below depends on row order
inside a dataframe).  Python floats are modelled by rationals; ObjectIDs by
integers.
-/

namespace ParallelODCM

/-! ## RangePartitioner: `_get_oid_ranges_for_input` (parallel_odcm.py lines 717-754)

The Python loop walks the OIDs returned by the search cursor, keeping
`num_in_range` (count of ids in the currently open range) and
`current_range` (a `[low, high]` pair, using `[0, 0]` as the "no open
range" sentinel).  Every `max_chunk_size` ids it closes the range, and at
the end it closes the final partial range only if `current_range != [0, 0]`.
-/

/-- The body of the `for row in arcpy.da.SearchCursor(...)` loop together
with the trailing `if current_range != [0, 0]` flush, as a recursion over
the remaining OIDs.  The state is `numInRange` and `currentRange`, exactly
as in the source. -/
def oidLoop (maxChunkSize : Nat) : List Int → Nat → Int × Int → List (Int × Int)
  | [], _, currentRange =>
    if currentRange = (0, 0) then [] else [currentRange]
  | oid :: rest, numInRange, currentRange =>
    let lo := if numInRange = 0 then oid else currentRange.1
    if numInRange + 1 = maxChunkSize then
      (lo, oid) :: oidLoop maxChunkSize rest 0 (0, 0)
    else
      oidLoop maxChunkSize rest (numInRange + 1) (lo, oid)

/-- `_get_oid_ranges_for_input` applied to the sequence of OIDs the search
cursor yields (ascending, already restricted by the `where` clause). -/
def getOidRangesForInput (oids : List Int) (maxChunkSize : Nat) : List (Int × Int) :=
  oidLoop maxChunkSize oids 0 (0, 0)

/-- `_get_oid_ranges_for_input` with an explicit filter predicate standing
for the optional `where` clause: the cursor yields exactly the ids of the
ordered id sequence that survive the predicate. -/
def getOidRangesForInputWhere (oids : List Int) (pred : Int → Bool) (maxChunkSize : Nat) :
    List (Int × Int) :=
  getOidRangesForInput (oids.filter pred) maxChunkSize

/-- Number of ids of `oids` falling inside the inclusive range `r`
(the "surviving-element count" of a chunk). -/
def countInRange (oids : List Int) (r : Int × Int) : Nat :=
  (oids.filter (fun x => decide (r.1 ≤ x) && decide (x ≤ r.2))).length

example : getOidRangesForInput [1, 2, 3, 4, 5] 2 = [(1, 2), (3, 4), (5, 5)] := by decide
example : getOidRangesForInput [1, 3, 7, 20] 3 = [(1, 7), (20, 20)] := by decide
example : getOidRangesForInput [] 4 = [] := by rfl
example : getOidRangesForInput [0] 2 = [] := by decide
example : getOidRangesForInput [0] 1 = [(0, 0)] := by decide

/-! ## ChunkSolver: the tail of `ODCostMatrix.solve` (lines 401-443)

After the routing engine returns, the method consolidates the solver
messages, records them in `job_result`, and returns early (leaving
`solveSucceeded = False` and `outputLines = ""` as initialized in
`__init__`, writing no file) when the engine reports failure; on success
it sets `solveSucceeded = True` and exports the result rows to a CSV file
whose name is recorded in `outputLines`.  The CSV write is modelled as the
optional second component of the result. -/

/-- The fields of the `job_result` dictionary that the scheduler consumes
(`jobId` and `logFile` are opaque bookkeeping and are omitted). -/
structure JobResult where
  solveSucceeded : Bool
  solveMessages : String
  outputLines : String
  deriving Repr, DecidableEq

/-- The common message prefix collapsed by `ODCostMatrix.solve`. -/
def commonMsgPrefix : String := "No \"Destinations\" found for "

/-- Lines 410-416: drop every message starting with `commonMsgPrefix` and,
if any were dropped, append one summary message, then join with newlines. -/
def consolidateMessages (msgs : List String) : String :=
  let kept := msgs.filter (fun msg => !msg.startsWith commonMsgPrefix)
  let numRemoved := msgs.length - kept.length
  let kept := if numRemoved ≠ 0 then
    kept ++ [s!"No destinations were found for {numRemoved} origins."] else kept
  String.intercalate "\n" kept

/-- Lines 418-443 of `ODCostMatrix.solve`: given the engine's success flag
and messages, produce the final `job_result` together with the CSV file
written (`none` when no file is written).  `outFilename` is the
deterministic `ODLines_O_..._D_..._T_...` name built from the chunk's
coordinates. -/
def solveFinish (engineSucceeded : Bool) (msgs : List String) (outFilename : String) :
    JobResult × Option String :=
  let jobResult : JobResult :=
    { solveSucceeded := false
      solveMessages := consolidateMessages msgs
      outputLines := "" }
  if engineSucceeded then
    ({ jobResult with solveSucceeded := true, outputLines := outFilename }, some outFilename)
  else
    (jobResult, none)

/-! ## ParallelScheduler: the completion loop of `solve_od_in_parallel`
(lines 774-813) -/

/-- Lines 789-799: bucket one retrieved job result, appending its result
file to `od_line_files` only when the solve succeeded (a failed solve is
only logged at debug severity). -/
def collectLineFiles (odLineFiles : List String) (result : JobResult) : List String :=
  if result.solveSucceeded then odLineFiles ++ [result.outputLines] else odLineFiles

/-- One `future.result()` retrieval: either a `JobResult` or a raised
exception of type `ε` (an infrastructure failure). -/
def gatherResults {ε : Type} : List (Except ε JobResult) → List String →
    Except ε (List String)
  | [], odLineFiles => Except.ok odLineFiles
  | Except.error e :: _, _ => Except.error e
  | Except.ok result :: rest, odLineFiles =>
    gatherResults rest (collectLineFiles odLineFiles result)

/-- `od_line_files` after the completion loop, as a function of the job
results in the order the futures completed (no retrieval raised). -/
def odLineFilesOf (results : List JobResult) : List String :=
  results.foldl collectLineFiles []

/-- Line 803: `self.od_line_files = sorted(self.od_line_files)` before any
aggregation (Python string sort, modelled by `mergeSort` under the
lexicographic order on `String`). -/
def sortedLineFiles (odLineFiles : List String) : List String :=
  odLineFiles.mergeSort (fun a b => decide (a ≤ b))

/-- The successful result-file list handed to the aggregators: collected in
completion order, then sorted. -/
def finalResultFiles (results : List JobResult) : List String :=
  sortedLineFiles (odLineFilesOf results)

/-- The two tools this script dispatches on (`AnalysisHelpers.ODTool`). -/
inductive ODTool where
  | calculateAccessibilityMatrix
  | calculateTravelTimeStatistics
  deriving Repr, DecidableEq

/-- What the post-processing step (lines 801-813) does. -/
inductive PostProcessAction where
  | runAccessibilityAggregator
  | runTravelTimeAggregator
  | warnAllSolvesFailed
  deriving Repr, DecidableEq

/-- Lines 801-813: if `od_line_files` is nonempty, sort it and run the
aggregator matching the tool; otherwise emit a warning and produce no
output (no exception in either case). -/
def postProcess (tool : ODTool) (odLineFiles : List String) : PostProcessAction :=
  if !odLineFiles.isEmpty then
    match tool with
    | ODTool.calculateAccessibilityMatrix => PostProcessAction.runAccessibilityAggregator
    | ODTool.calculateTravelTimeStatistics => PostProcessAction.runTravelTimeAggregator
  else
    PostProcessAction.warnAllSolvesFailed

/-! ## AccessibilityAggregator: `_calculate_accessibility_matrix_outputs`
(lines 827-941)

A result file in accessibility mode is a list of `(OriginOID,
DestinationOID)` rows.  The pandas pipeline tags every row with
`TimesReached = 1`, then folds the files together, grouping by the
`(OriginOID, DestinationOID)` index and summing `TimesReached`.  Group
keys are kept in first-occurrence order (pandas sorts them; no statistic
depends on row order). -/

/-- An `(OriginOID, DestinationOID)` row of an OD Lines result file. -/
abbrev ODPair := Int × Int

/-- `df["TimesReached"] = 1` (line 848). -/
def tagTimesReached (file : List ODPair) : List (ODPair × Nat) :=
  file.map (fun row => (row, 1))

/-- The summed `TimesReached` value of all rows with index key `k`. -/
def keySum (rows : List (ODPair × Nat)) (k : ODPair) : Nat :=
  ((rows.filter (fun row => decide (row.1 = k))).map Prod.snd).sum

/-- `pd.concat(...).groupby(["OriginOID", "DestinationOID"]).sum()`
(line 858): one row per distinct key, with the `TimesReached` values
summed. -/
def groupSumTimesReached (rows : List (ODPair × Nat)) : List (ODPair × Nat) :=
  (rows.map Prod.fst).dedup.map (fun k => (k, keySum rows k))

/-- Lines 838-861: fold all result files into `result_df`.  The first file
initializes the dataframe; each later file is concatenated and re-grouped. -/
def combineODFiles (files : List (List ODPair)) : List (ODPair × Nat) :=
  match files with
  | [] => []
  | f :: rest =>
    rest.foldl (fun acc g => groupSumTimesReached (acc ++ tagTimesReached g)) (tagTimesReached f)

/-- Total number of departure instants for which the pair `(o, d)` appears
in a successful result file (each file holds the rows of one solve). -/
def reachCount (files : List (List ODPair)) (o d : Int) : Nat :=
  files.countP (fun f => decide ((o, d) ∈ f))

/-- `total_dests` (lines 874/889): the total destination weight, summed
over the whole destinations table. -/
def totalDestWeight (destTable : List Int) (w : Int → ℚ) : ℚ :=
  (destTable.map w).sum

/-- `output_df["TotalDests"]` for one origin (line 900): the summed weight
of the result rows of this origin with `TimesReached > 0`. -/
def totalDests (files : List (List ODPair)) (w : Int → ℚ) (o : Int) : ℚ :=
  (((combineODFiles files).filter
      (fun row => decide (row.1.1 = o) && decide (0 < row.2))).map
    (fun row => w row.1.2)).sum

/-- `output_df["PercDests"]` for one origin (line 902). -/
def percDests (files : List (List ODPair)) (w : Int → ℚ) (destTable : List Int)
    (o : Int) : ℚ :=
  100 * totalDests files w o / totalDestWeight destTable w

/-- `output_df[f"DsAL{perc}Perc"]` for one origin (lines 917-919): the
summed weight of the result rows of this origin whose `TimesReached` is at
least the real-valued threshold `len(start_times) * perc / 100`. -/
def dsalPerc (files : List (List ODPair)) (w : Int → ℚ) (sampleCount perc : Nat)
    (o : Int) : ℚ :=
  (((combineODFiles files).filter
      (fun row => decide (row.1.1 = o) &&
        decide ((sampleCount * perc / 100 : ℚ) ≤ (row.2 : ℚ)))).map
    (fun row => w row.1.2)).sum

/-- `output_df[f"PsAL{perc}Perc"]` for one origin (line 920). -/
def psalPerc (files : List (List ODPair)) (w : Int → ℚ) (destTable : List Int)
    (sampleCount perc : Nat) (o : Int) : ℚ :=
  100 * dsalPerc files w sampleCount perc o / totalDestWeight destTable w

/-- The decile thresholds `range(10, 100, 10)` of line 913. -/
def decilePercs : List Nat := [10, 20, 30, 40, 50, 60, 70, 80, 90]

/-- Whether an origin appears in `result_df` (drives `output_df`'s index,
line 893; an absent origin hits the `KeyError` branch of lines 936-938). -/
def originPresent (files : List (List ODPair)) (o : Int) : Bool :=
  (combineODFiles files).any (fun row => decide (row.1.1 = o))

/-- The statistics row written back for one origin OID (lines 931-939):
`[TotalDests, PercDests, DsAL10Perc, PsAL10Perc, ..., DsAL90Perc,
PsAL90Perc]`; an origin absent from the combined results gets the
`KeyError` all-zero row. -/
def accessibilityRow (files : List (List ODPair)) (w : Int → ℚ) (destTable : List Int)
    (sampleCount : Nat) (o : Int) : List ℚ :=
  if originPresent files o then
    [totalDests files w o, percDests files w destTable o] ++
      decilePercs.flatMap (fun perc =>
        [dsalPerc files w sampleCount perc o, psalPerc files w destTable sampleCount perc o])
  else
    List.replicate 20 0

/-! ## TravelTimeAggregator: `_calculate_travel_time_statistics_outputs`
(lines 943-989)

A result file in travel-time mode carries `(OriginOID, DestinationOID,
Total_Time)` rows; its filename prefix `ODLines_O_{low}_{high}_` encodes
exactly the origin range of the chunk that produced it (the name is built
deterministically in `ODCostMatrix.solve`, line 430), so grouping by
filename prefix is modelled as grouping by the stored origin range. -/

/-- One travel-time result file: the origin range encoded in its filename
prefix and its `(OriginOID, DestinationOID, Total_Time)` rows. -/
structure TTResultFile where
  originRange : Int × Int
  rows : List (ODPair × ℚ)
  deriving Repr

/-- `files_for_origin_range` (lines 958-962): the result files whose
filename starts with `ODLines_O_{low}_{high}_` for this origin range. -/
def ttGroupFiles (odLineFiles : List TTResultFile) (r : Int × Int) : List TTResultFile :=
  odLineFiles.filter (fun f => decide (f.originRange = r))

/-- `pd.concat(map(read_csv, files_for_origin_range))` (line 971). -/
def ttGroupRows (odLineFiles : List TTResultFile) (r : Int × Int) : List (ODPair × ℚ) :=
  (ttGroupFiles odLineFiles r).flatMap (fun f => f.rows)

/-- `min` of a nonempty list of rationals (0 for the empty list, which the
pipeline never produces for a group key). -/
def listMin : List ℚ → ℚ
  | [] => 0
  | t :: ts => ts.foldl min t

/-- `max` of a nonempty list of rationals. -/
def listMax : List ℚ → ℚ
  | [] => 0
  | t :: ts => ts.foldl max t

/-- The `Total_Time` samples of one `(origin, destination)` key within a
group's concatenated rows. -/
def ttTimes (rows : List (ODPair × ℚ)) (k : ODPair) : List ℚ :=
  (rows.filter (fun row => decide (row.1 = k))).map Prod.snd

/-- `df.groupby(["OriginOID", "DestinationOID"]).agg({"Total_Time":
["count", "min", "max", "mean"]})` (lines 974-976): one row per distinct
`(origin, destination)` key with the count, min, max and mean of
`Total_Time` over the group's rows. -/
def ttStatsOfGroup (rows : List (ODPair × ℚ)) :
    List (ODPair × (Nat × ℚ × ℚ × ℚ)) :=
  (rows.map Prod.fst).dedup.map (fun k =>
    (k, ((ttTimes rows k).length, listMin (ttTimes rows k), listMax (ttTimes rows k),
      (ttTimes rows k).sum / ((ttTimes rows k).length : ℚ))))

/-- The full travel-time statistics table (lines 956-986): origin-range
groups are processed in order, each group's statistics rows being appended
to the output CSV before the next group's files are read; a range with no
result files contributes nothing (`continue`). -/
def travelTimeStatistics (originRanges : List (Int × Int))
    (odLineFiles : List TTResultFile) : List (ODPair × (Nat × ℚ × ℚ × ℚ)) :=
  originRanges.flatMap (fun r =>
    if (ttGroupFiles odLineFiles r).isEmpty then []
    else ttStatsOfGroup (ttGroupRows odLineFiles r))

/-! ### Helper lemmas about sorted lists and range counting -/

theorem getLastD_cons_mem {α : Type _} (a : α) (t : List α) (d : α) :
    (a :: t).getLastD d ∈ a :: t := by
  induction t generalizing a d with
  | nil => simp
  | cons b t ih =>
    rw [List.getLastD_cons]
    exact List.mem_cons_of_mem a (ih b a)

theorem sorted_head_le {a x : Int} {t : List Int}
    (hs : (a :: t).Sorted (· < ·)) (hx : x ∈ a :: t) : a ≤ x := by
  rcases List.mem_cons.mp hx with h | h
  · exact le_of_eq h.symm
  · exact le_of_lt (List.rel_of_sorted_cons hs x h)

theorem sorted_le_getLastD {l : List Int} (hs : l.Sorted (· < ·)) :
    ∀ x ∈ l, ∀ d, x ≤ l.getLastD d := by
  induction l with
  | nil => intro x hx; cases hx
  | cons a t ih =>
    intro x hx d
    rw [List.getLastD_cons]
    rcases List.mem_cons.mp hx with h | h
    · subst h
      cases t with
      | nil => simp
      | cons b t' =>
        have hb : x < b := List.rel_of_sorted_cons hs b (List.mem_cons_self _ _)
        exact le_trans (le_of_lt hb) (ih hs.of_cons b (List.mem_cons_self _ _) x)
    · exact ih hs.of_cons x h a

theorem countInRange_append (l₁ l₂ : List Int) (r : Int × Int) :
    countInRange (l₁ ++ l₂) r = countInRange l₁ r + countInRange l₂ r := by
  simp [countInRange, List.filter_append]

theorem countInRange_eq_length {l : List Int} {r : Int × Int}
    (h : ∀ x ∈ l, r.1 ≤ x ∧ x ≤ r.2) : countInRange l r = l.length := by
  unfold countInRange
  rw [List.filter_eq_self.mpr]
  intro a ha
  simp only [Bool.and_eq_true, decide_eq_true_eq]
  exact h a ha

theorem countInRange_eq_zero {l : List Int} {r : Int × Int}
    (h : ∀ x ∈ l, ¬(r.1 ≤ x ∧ x ≤ r.2)) : countInRange l r = 0 := by
  unfold countInRange
  rw [List.length_eq_zero, List.filter_eq_nil_iff]
  intro a ha
  simp only [Bool.and_eq_true, decide_eq_true_eq]
  exact h a ha

/-! ### Unfolding lemmas for the partitioner loop -/

/-- Behavior of the loop from a mid-chunk state: with `num` ids already in
the open range `(f, l)` (`l` the last consumed id), the loop either closes
the range at the end of the input, or completes the chunk after
`maxChunkSize - num` further ids and restarts fresh. -/
theorem oidLoop_mid (m : Nat) (ids : List Int) :
    ∀ (num : Nat) (f l : Int), 1 ≤ num → num < m → l ≠ 0 → (∀ x ∈ ids, x ≠ 0) →
    oidLoop m ids num (f, l) =
      if ids.length < m - num then [(f, ids.getLastD l)]
      else (f, (ids.take (m - num)).getLastD l) ::
        oidLoop m (ids.drop (m - num)) 0 (0, 0) := by
  induction ids with
  | nil =>
    intro num f l _ h2 hl _
    have h0 : 0 < m - num := by omega
    have hne : ¬((f, l) = ((0 : Int), (0 : Int))) := by
      intro h
      exact hl (congrArg Prod.snd h)
    simp only [oidLoop]
    rw [if_neg hne, if_pos (by simpa using h0)]
    simp [List.getLastD]
  | cons a rest ih =>
    intro num f l h1 h2 hl hnz
    have ha : a ≠ 0 := hnz a (List.mem_cons_self _ _)
    have hnz' : ∀ x ∈ rest, x ≠ 0 := fun x hx => hnz x (List.mem_cons_of_mem a hx)
    have hnum0 : ¬num = 0 := by omega
    by_cases hm : num + 1 = m
    · have hmn : m - num = 1 := by omega
      simp only [oidLoop, hnum0, if_false, hm, if_true, hmn]
      have hlen : ¬((a :: rest).length < 1) := by simp
      rw [if_neg hlen, List.take_succ_cons, List.take_zero, List.drop_succ_cons,
        List.drop_zero, List.getLastD_cons]
      simp
    · have h2' : num + 1 < m := by omega
      have hge2 : 2 ≤ m - num := by omega
      simp only [oidLoop, hnum0, if_false, hm]
      rw [ih (num + 1) f a (by omega) h2' ha hnz']
      have hsub : m - num = (m - (num + 1)) + 1 := by omega
      by_cases hsmall : rest.length < m - (num + 1)
      · rw [if_pos hsmall, if_pos (by simp only [List.length_cons]; omega),
          List.getLastD_cons]
      · rw [if_neg hsmall, if_neg (by simp only [List.length_cons]; omega), hsub,
          List.take_succ_cons, List.drop_succ_cons, List.getLastD_cons]

/-- Unfolding of `_get_oid_ranges_for_input` on a nonempty all-nonzero id
sequence: the first range starts at the first id, and either absorbs the
whole input (when fewer than `maxChunkSize` ids remain) or closes after
exactly `maxChunkSize` ids. -/
theorem getOidRangesForInput_cons (m : Nat) (a : Int) (ids : List Int)
    (hm : 1 ≤ m) (ha : a ≠ 0) (hnz : ∀ x ∈ ids, x ≠ 0) :
    getOidRangesForInput (a :: ids) m =
      if ids.length < m - 1 then [(a, ids.getLastD a)]
      else (a, (ids.take (m - 1)).getLastD a) ::
        getOidRangesForInput (ids.drop (m - 1)) m := by
  by_cases h1 : m = 1
  · subst h1
    have hL : getOidRangesForInput (a :: ids) 1 = (a, a) :: getOidRangesForInput ids 1 := by
      simp [getOidRangesForInput, oidLoop]
    rw [hL, Nat.sub_self, if_neg (by omega), List.take_zero, List.drop_zero]
    simp [List.getLastD]
  · have h2 : 1 < m := by omega
    have hne : ¬(0 + 1 = m) := by omega
    simp only [getOidRangesForInput, oidLoop, if_pos rfl, hne, if_false]
    exact oidLoop_mid m ids 1 a a le_rfl h2 ha hnz

/-- Master correctness lemma for `_get_oid_ranges_for_input` on a strictly
ascending, all-nonzero id sequence: the ranges are well-formed with
endpoints drawn from the ids, pairwise disjoint and ascending, each holds
at most `maxChunkSize` surviving ids, there are exactly
`⌈#ids / maxChunkSize⌉` of them, their surviving-element counts sum to the
total, and every id is covered. -/
theorem getOidRangesForInput_main (m : Nat) (hm : 1 ≤ m) :
    ∀ (n : Nat) (ids : List Int), ids.length = n → ids.Sorted (· < ·) →
      (∀ x ∈ ids, x ≠ 0) →
      (∀ r ∈ getOidRangesForInput ids m, r.1 ≤ r.2 ∧ r.1 ∈ ids ∧ r.2 ∈ ids) ∧
      (getOidRangesForInput ids m).Chain' (fun r s => r.2 < s.1) ∧
      (∀ r ∈ getOidRangesForInput ids m, countInRange ids r ≤ m) ∧
      (getOidRangesForInput ids m).length = (ids.length + m - 1) / m ∧
      ((getOidRangesForInput ids m).map (countInRange ids)).sum = ids.length ∧
      (∀ x ∈ ids, ∃ r ∈ getOidRangesForInput ids m, r.1 ≤ x ∧ x ≤ r.2) := by
  intro n
  induction n using Nat.strong_induction_on with
  | _ n ih =>
    intro ids hlen hsort hnz
    cases ids with
    | nil =>
      have hdiv : (m - 1) / m = 0 := Nat.div_eq_of_lt (by omega)
      refine ⟨?_, ?_, ?_, ?_, ?_, ?_⟩ <;>
        simp [getOidRangesForInput, oidLoop, hdiv]
    | cons a rest =>
      have ha : a ≠ 0 := hnz a (List.mem_cons_self _ _)
      have hnzr : ∀ x ∈ rest, x ≠ 0 := fun x hx => hnz x (List.mem_cons_of_mem a hx)
      rw [getOidRangesForInput_cons m a rest hm ha hnzr]
      by_cases hsmall : rest.length < m - 1
      · rw [if_pos hsmall]
        have hLmem : rest.getLastD a ∈ a :: rest := by
          have h := getLastD_cons_mem a rest a
          rwa [List.getLastD_cons] at h
        have hhead : ∀ x ∈ a :: rest, a ≤ x := fun x hx => sorted_head_le hsort hx
        have hlast : ∀ x ∈ a :: rest, x ≤ rest.getLastD a := by
          intro x hx
          have h := sorted_le_getLastD hsort x hx a
          rwa [List.getLastD_cons] at h
        have hcount : countInRange (a :: rest) (a, rest.getLastD a) = (a :: rest).length :=
          countInRange_eq_length (fun x hx => ⟨hhead x hx, hlast x hx⟩)
        refine ⟨?_, ?_, ?_, ?_, ?_, ?_⟩
        · intro r hr
          rw [List.mem_singleton] at hr
          subst hr
          exact ⟨hhead _ hLmem, List.mem_cons_self _ _, hLmem⟩
        · exact List.chain'_singleton _
        · intro r hr
          rw [List.mem_singleton] at hr
          subst hr
          rw [hcount]
          simp only [List.length_cons]
          omega
        · have hone : (rest.length + m) / m = 1 :=
            Nat.div_eq_of_lt_le (by omega) (by omega)
          simp [hone]
        · simp only [List.map_cons, List.map_nil, List.sum_cons, List.sum_nil, add_zero,
            hcount]
        · intro x hx
          exact ⟨(a, rest.getLastD a), List.mem_singleton_self _, hhead x hx, hlast x hx⟩
      · rw [if_neg hsmall]
        push_neg at hsmall
        set t' := rest.drop (m - 1) with ht'
        set front := a :: rest.take (m - 1) with hfront
        set mEnd := (rest.take (m - 1)).getLastD a with hmEnd
        have hids : a :: rest = front ++ t' := by
          rw [hfront, ht', List.cons_append, List.take_append_drop]
        have hfrontlen : front.length = m := by
          rw [hfront]
          simp only [List.length_cons, List.length_take]
          omega
        have hsplit := hsort
        rw [hids] at hsplit
        have hsortfront : front.Sorted (· < ·) := (List.pairwise_append.mp hsplit).1
        have hsortt' : t'.Sorted (· < ·) := (List.pairwise_append.mp hsplit).2.1
        have hcross : ∀ x ∈ front, ∀ y ∈ t', x < y := (List.pairwise_append.mp hsplit).2.2
        have hnzt' : ∀ x ∈ t', x ≠ 0 := fun x hx =>
          hnzr x ((List.drop_sublist _ _).subset hx)
        have ht'len : t'.length = rest.length + 1 - m := by
          rw [ht', List.length_drop]
          omega
        have ht'lt : t'.length < n := by
          simp only [List.length_cons] at hlen
          omega
        obtain ⟨IH1, IH2, IH3, IH4, IH5, IH6⟩ := ih t'.length ht'lt t' rfl hsortt' hnzt'
        have hmEndfront : mEnd ∈ front := by
          have h := getLastD_cons_mem a (rest.take (m - 1)) a
          rwa [List.getLastD_cons] at h
        have hfronthead : ∀ x ∈ front, a ≤ x := fun x hx => sorted_head_le hsortfront hx
        have hfrontle : ∀ x ∈ front, x ≤ mEnd := by
          intro x hx
          have h := sorted_le_getLastD hsortfront x hx a
          rwa [hfront, List.getLastD_cons] at h
        have hfrontsub : ∀ x ∈ front, x ∈ a :: rest := by
          rw [hids]
          exact fun x hx => List.mem_append.mpr (Or.inl hx)
        have ht'sub : ∀ x ∈ t', x ∈ a :: rest := by
          rw [hids]
          exact fun x hx => List.mem_append.mpr (Or.inr hx)
        have hcount1 : countInRange (a :: rest) (a, mEnd) = m := by
          rw [hids, countInRange_append,
            countInRange_eq_length (fun x hx => ⟨hfronthead x hx, hfrontle x hx⟩),
            countInRange_eq_zero (fun y hy hcon => absurd hcon.2
              (not_le.mpr (hcross mEnd hmEndfront y hy))),
            hfrontlen, add_zero]
        have hcountR' : ∀ r ∈ getOidRangesForInput t' m,
            countInRange (a :: rest) r = countInRange t' r := by
          intro r hr
          rw [hids, countInRange_append,
            countInRange_eq_zero (fun x hx hcon => absurd hcon.1
              (not_le.mpr (hcross x hx r.1 (IH1 r hr).2.1))),
            zero_add]
        refine ⟨?_, ?_, ?_, ?_, ?_, ?_⟩
        · intro r hr
          rcases List.mem_cons.mp hr with h | h
          · subst h
            exact ⟨hfronthead mEnd hmEndfront, List.mem_cons_self _ _,
              hfrontsub mEnd hmEndfront⟩
          · obtain ⟨hle, h1, h2⟩ := IH1 r h
            exact ⟨hle, ht'sub _ h1, ht'sub _ h2⟩
        · rw [List.chain'_cons']
          refine ⟨?_, IH2⟩
          intro y hy
          have hyR : y ∈ getOidRangesForInput t' m := List.mem_of_mem_head? hy
          exact hcross mEnd hmEndfront y.1 (IH1 y hyR).2.1
        · intro r hr
          rcases List.mem_cons.mp hr with h | h
          · subst h
            rw [hcount1]
          · rw [hcountR' r h]
            exact IH3 r h
        · simp only [List.length_cons, IH4]
          have harith : rest.length + 1 + m - 1 = (t'.length + m - 1) + m := by omega
          rw [harith, Nat.add_div_right _ (by omega : 0 < m)]
        · simp only [List.map_cons, List.sum_cons, hcount1,
            List.map_congr_left hcountR', IH5, List.length_cons]
          omega
        · intro x hx
          rw [hids, List.mem_append] at hx
          rcases hx with h | h
          · exact ⟨(a, mEnd), List.mem_cons_self _ _, hfronthead x h, hfrontle x h⟩
          · obtain ⟨r, hr, hxr⟩ := IH6 x h
            exact ⟨r, List.mem_cons_of_mem _ hr, hxr⟩

/-! ### Minimality of the range count -/

theorem countInRange_cons (x : Int) (s : List Int) (r : Int × Int) :
    countInRange (x :: s) r = (if r.1 ≤ x ∧ x ≤ r.2 then 1 else 0) + countInRange s r := by
  unfold countInRange
  rw [List.filter_cons]
  by_cases h : r.1 ≤ x ∧ x ≤ r.2
  · simp [h.1, h.2, Nat.add_comm]
  · rw [if_neg h]
    have : (decide (r.1 ≤ x) && decide (x ≤ r.2)) = false := by
      rw [Bool.and_eq_false_iff]
      by_cases h1 : r.1 ≤ x
      · exact Or.inr (decide_eq_false (fun h2 => h ⟨h1, h2⟩))
      · exact Or.inl (decide_eq_false h1)
    simp [this]

theorem sum_map_boole (l : List (Int × Int)) (x : Int) :
    (l.map (fun r => if r.1 ≤ x ∧ x ≤ r.2 then 1 else 0)).sum =
      (l.filter (fun r => decide (r.1 ≤ x) && decide (x ≤ r.2))).length := by
  induction l with
  | nil => rfl
  | cons r l ih =>
    rw [List.map_cons, List.sum_cons, List.filter_cons, ih]
    by_cases h : r.1 ≤ x ∧ x ≤ r.2
    · simp [h.1, h.2, Nat.add_comm]
    · have : (decide (r.1 ≤ x) && decide (x ≤ r.2)) = false := by
        rw [Bool.and_eq_false_iff]
        by_cases h1 : r.1 ≤ x
        · exact Or.inr (decide_eq_false (fun h2 => h ⟨h1, h2⟩))
        · exact Or.inl (decide_eq_false h1)
      simp [h, this]

theorem sum_countInRange_swap (alt : List (Int × Int)) (s : List Int) :
    (alt.map (countInRange s)).sum =
      (s.map (fun x =>
        (alt.filter (fun r => decide (r.1 ≤ x) && decide (x ≤ r.2))).length)).sum := by
  induction s with
  | nil =>
    rw [List.map_nil, List.sum_nil, List.sum_eq_zero]
    intro y hy
    obtain ⟨r, _, rfl⟩ := List.mem_map.mp hy
    rfl
  | cons x s ih =>
    rw [List.map_cons, List.sum_cons, ← sum_map_boole, ← ih,
      List.map_congr_left (fun r (_ : r ∈ alt) => countInRange_cons x s r),
      List.sum_map_add]

theorem length_le_sum_map {α : Type _} (s : List α) (f : α → Nat)
    (h : ∀ x ∈ s, 1 ≤ f x) : s.length ≤ (s.map f).sum := by
  induction s with
  | nil => simp
  | cons x s ih =>
    rw [List.length_cons, List.map_cons, List.sum_cons]
    have h1 := h x (List.mem_cons_self _ _)
    have h2 := ih (fun y hy => h y (List.mem_cons_of_mem x hy))
    omega

/-- Any family of ranges that covers all of `s` while containing at most
`m` elements of `s` per range has at least `⌈#s / m⌉` members. -/
theorem ceil_le_of_cover (m : Nat) (hm : 1 ≤ m) (s : List Int) (alt : List (Int × Int))
    (hcov : ∀ x ∈ s, ∃ r ∈ alt, r.1 ≤ x ∧ x ≤ r.2)
    (hbound : ∀ r ∈ alt, countInRange s r ≤ m) :
    (s.length + m - 1) / m ≤ alt.length := by
  have h1 : s.length ≤ (alt.map (countInRange s)).sum := by
    rw [sum_countInRange_swap]
    apply length_le_sum_map
    intro x hx
    obtain ⟨r, hr, hxr⟩ := hcov x hx
    have hmem : r ∈ alt.filter (fun r => decide (r.1 ≤ x) && decide (x ≤ r.2)) := by
      rw [List.mem_filter]
      exact ⟨hr, by simp [hxr.1, hxr.2]⟩
    exact List.length_pos.mpr (List.ne_nil_of_mem hmem)
  have h2 : (alt.map (countInRange s)).sum ≤ alt.length * m := by
    have hb : ∀ x ∈ alt.map (countInRange s), x ≤ m := by
      intro x hx
      obtain ⟨r, hr, rfl⟩ := List.mem_map.mp hx
      exact hbound r hr
    have := List.sum_le_card_nsmul (alt.map (countInRange s)) m hb
    simpa [smul_eq_mul, List.length_map] using this
  have h3 : s.length + m - 1 ≤ alt.length * m + (m - 1) := by omega
  calc (s.length + m - 1) / m ≤ (alt.length * m + (m - 1)) / m := Nat.div_le_div_right h3
    _ = alt.length := by
        rw [show alt.length * m + (m - 1) = m * alt.length + (m - 1) by ring,
          Nat.mul_add_div (by omega), Nat.div_eq_of_lt (by omega), add_zero]

/-! ### Claim C1 (corrected: requires all surviving ids nonzero) -/

/-- C1 counterexample: with the single surviving identifier `0` and
`max_chunk_size = 2`, `_get_oid_ranges_for_input` returns the empty range
list, so the ranges' surviving-element counts sum to `0`, not to the
surviving-element count `1` of the input: the coverage clause of C1 fails
as stated. -/
theorem rangePartitioner_zero_oid_counterexample :
    getOidRangesForInputWhere [0] (fun _ => true) 2 = [] ∧
    ((getOidRangesForInputWhere [0] (fun _ => true) 2).map
        (countInRange (([0] : List Int).filter (fun _ => true)))).sum ≠
      (([0] : List Int).filter (fun _ => true)).length := by
  decide

/-- C1 (amended with the precondition that all identifiers are nonzero):
for an ordered (strictly ascending) sequence of nonzero identifiers, an
optional filter predicate and `max_chunk_size ≥ 1`,
`_get_oid_ranges_for_input` returns ordered, pairwise-disjoint, ascending
inclusive ranges, each holding at most `max_chunk_size` surviving ids,
minimal in number (exactly `⌈n / max_chunk_size⌉`, and no smaller covering
family with the same per-range bound exists), whose surviving-element
counts sum to the total surviving count, covering every surviving id; an
empty surviving set yields the empty list. -/
theorem rangePartitioner_correct (oids : List Int) (pred : Int → Bool) (m : Nat)
    (hm : 1 ≤ m) (hsorted : oids.Sorted (· < ·)) (hnz : ∀ x ∈ oids, x ≠ 0) :
    (∀ r ∈ getOidRangesForInputWhere oids pred m, r.1 ≤ r.2) ∧
    (getOidRangesForInputWhere oids pred m).Chain' (fun r s => r.2 < s.1) ∧
    (∀ r ∈ getOidRangesForInputWhere oids pred m,
      countInRange (oids.filter pred) r ≤ m) ∧
    (getOidRangesForInputWhere oids pred m).length =
      ((oids.filter pred).length + m - 1) / m ∧
    (∀ alt : List (Int × Int),
      (∀ x ∈ oids.filter pred, ∃ r ∈ alt, r.1 ≤ x ∧ x ≤ r.2) →
      (∀ r ∈ alt, countInRange (oids.filter pred) r ≤ m) →
      (getOidRangesForInputWhere oids pred m).length ≤ alt.length) ∧
    ((getOidRangesForInputWhere oids pred m).map
        (countInRange (oids.filter pred))).sum = (oids.filter pred).length ∧
    (∀ x ∈ oids.filter pred, ∃ r ∈ getOidRangesForInputWhere oids pred m,
      r.1 ≤ x ∧ x ≤ r.2) ∧
    (oids.filter pred = [] → getOidRangesForInputWhere oids pred m = []) := by
  simp only [getOidRangesForInputWhere]
  have hs : (oids.filter pred).Sorted (· < ·) := hsorted.filter _
  have hnz' : ∀ x ∈ oids.filter pred, x ≠ 0 := fun x hx =>
    hnz x (List.mem_of_mem_filter hx)
  obtain ⟨H1, H2, H3, H4, H5, H6⟩ :=
    getOidRangesForInput_main m hm (oids.filter pred).length (oids.filter pred) rfl hs hnz'
  refine ⟨fun r hr => (H1 r hr).1, H2, H3, H4, ?_, H5, H6, ?_⟩
  · intro alt hcov hbound
    rw [H4]
    exact ceil_le_of_cover m hm _ alt hcov hbound
  · intro h
    rw [h]
    rfl

theorem rangePartitioner_correct_witness :
    (getOidRangesForInputWhere [1, 2, 3] (fun x => decide (x ≠ 2)) 1).length =
      ((([1, 2, 3] : List Int).filter (fun x => decide (x ≠ 2))).length + 1 - 1) / 1 :=
  (rangePartitioner_correct [1, 2, 3] (fun x => decide (x ≠ 2)) 1
    (by decide) (by decide) (by decide)).2.2.2.1

/-! ### Claim C10 (confirmed): the `[0, 0]` sentinel drops a trailing id 0 -/

/-- C10: the loop's `[0, 0]` "no open range" sentinel is indistinguishable
from a trailing partial range holding only the identifier `0`: when the
only surviving identifier is `0` and `max_chunk_size ≥ 2` the function
returns `[]`, silently dropping it, whereas for all-nonzero identifier
sequences the final partial range is emitted and the ranges' counts cover
the whole input. -/
theorem rangePartitioner_zero_sentinel :
    (∀ m : Nat, 2 ≤ m → getOidRangesForInput [0] m = []) ∧
    (∀ (ids : List Int) (m : Nat), 1 ≤ m → ids.Sorted (· < ·) →
      (∀ x ∈ ids, x ≠ 0) →
      ((getOidRangesForInput ids m).map (countInRange ids)).sum = ids.length) := by
  constructor
  · intro m hm
    have h1 : ¬(0 + 1 = m) := by omega
    simp [getOidRangesForInput, oidLoop, h1]
  · intro ids m hm hsorted hnz
    exact (getOidRangesForInput_main m hm ids.length ids rfl hsorted hnz).2.2.2.2.1

theorem rangePartitioner_zero_sentinel_witness :
    getOidRangesForInput [0] 2 = [] ∧
    ((getOidRangesForInput [3, 5] 2).map (countInRange [3, 5])).sum =
      ([3, 5] : List Int).length :=
  ⟨rangePartitioner_zero_sentinel.1 2 (by norm_num),
    rangePartitioner_zero_sentinel.2 [3, 5] 2 (by norm_num) (by decide) (by decide)⟩

/-! ### Structure of the combined accessibility dataframe -/

theorem keySum_cons (row : ODPair × Nat) (rows : List (ODPair × Nat)) (k : ODPair) :
    keySum (row :: rows) k = (if row.1 = k then row.2 else 0) + keySum rows k := by
  rw [keySum, List.filter_cons]
  by_cases h : row.1 = k
  · simp [h, keySum]
  · simp [h, keySum]

theorem keySum_append (l₁ l₂ : List (ODPair × Nat)) (k : ODPair) :
    keySum (l₁ ++ l₂) k = keySum l₁ k + keySum l₂ k := by
  simp [keySum, List.filter_append]

theorem keySum_eq_zero {rows : List (ODPair × Nat)} {k : ODPair}
    (h : k ∉ rows.map Prod.fst) : keySum rows k = 0 := by
  have hnil : rows.filter (fun row => decide (row.1 = k)) = [] := by
    rw [List.filter_eq_nil_iff]
    intro row hrow
    simp only [decide_eq_true_eq]
    intro hk
    exact h (List.mem_map.mpr ⟨row, hrow, hk⟩)
  rw [keySum, hnil]
  rfl

theorem keySum_tag (f : List ODPair) (k : ODPair) :
    keySum (tagTimesReached f) k = f.countP (fun x => decide (x = k)) := by
  induction f with
  | nil => rfl
  | cons x t ih =>
    show keySum ((x, 1) :: tagTimesReached t) k = _
    rw [keySum_cons, ih, List.countP_cons]
    by_cases h : x = k
    · simp [h, Nat.add_comm]
    · simp [h]

theorem groupSum_keys (rows : List (ODPair × Nat)) :
    (groupSumTimesReached rows).map Prod.fst = (rows.map Prod.fst).dedup := by
  rw [groupSumTimesReached, List.map_map]
  exact List.map_id _

theorem nodup_filter_eq_singleton {α : Type _} [DecidableEq α] {l : List α}
    (h : l.Nodup) (k : α) :
    l.filter (fun x => decide (x = k)) = if k ∈ l then [k] else [] := by
  induction l with
  | nil => simp
  | cons a t ih =>
    rcases List.nodup_cons.mp h with ⟨ha, ht⟩
    rw [List.filter_cons]
    by_cases hak : a = k
    · subst hak
      rw [if_pos (by simp), if_pos (List.mem_cons_self _ _), ih ht, if_neg ha]
    · have hka : ¬k = a := fun hh => hak hh.symm
      rw [if_neg (by simpa using hak), ih ht]
      simp [List.mem_cons, hka]

theorem keySum_groupSum (rows : List (ODPair × Nat)) (k : ODPair) :
    keySum (groupSumTimesReached rows) k = keySum rows k := by
  rw [groupSumTimesReached, keySum, List.filter_map]
  have hcomp : ((fun row : ODPair × Nat => decide (row.1 = k)) ∘
      fun k' => (k', keySum rows k')) = fun k' => decide (k' = k) := rfl
  rw [hcomp, nodup_filter_eq_singleton (List.nodup_dedup _) k]
  by_cases h : k ∈ (rows.map Prod.fst).dedup
  · rw [if_pos h]
    simp
  · rw [if_neg h]
    rw [List.mem_dedup] at h
    simp [keySum_eq_zero h]

theorem groupSum_keys_nodup (rows : List (ODPair × Nat)) :
    ((groupSumTimesReached rows).map Prod.fst).Nodup := by
  rw [groupSum_keys]
  exact List.nodup_dedup _

theorem tag_keys (f : List ODPair) : (tagTimesReached f).map Prod.fst = f := by
  rw [tagTimesReached, List.map_map]
  exact List.map_id _

theorem keySum_combine (files : List (List ODPair)) (k : ODPair) :
    keySum (combineODFiles files) k =
      (files.map (fun f => f.countP (fun x => decide (x = k)))).sum := by
  cases files with
  | nil => rfl
  | cons f rest =>
    have key : ∀ (gs : List (List ODPair)) (acc : List (ODPair × Nat)),
        keySum (gs.foldl
          (fun acc g => groupSumTimesReached (acc ++ tagTimesReached g)) acc) k =
          keySum acc k + (gs.map (fun g => g.countP (fun x => decide (x = k)))).sum := by
      intro gs
      induction gs with
      | nil => intro acc; simp
      | cons g gs ih =>
        intro acc
        rw [List.foldl_cons, ih, keySum_groupSum, keySum_append, keySum_tag,
          List.map_cons, List.sum_cons]
        omega
    rw [show combineODFiles (f :: rest) = rest.foldl
      (fun acc g => groupSumTimesReached (acc ++ tagTimesReached g))
      (tagTimesReached f) from rfl, key, keySum_tag, List.map_cons, List.sum_cons]

theorem mem_keys_combine (files : List (List ODPair)) (k : ODPair) :
    k ∈ (combineODFiles files).map Prod.fst ↔ ∃ f ∈ files, k ∈ f := by
  cases files with
  | nil => simp [combineODFiles]
  | cons f rest =>
    have key : ∀ (gs : List (List ODPair)) (acc : List (ODPair × Nat)),
        (k ∈ (gs.foldl
          (fun acc g => groupSumTimesReached (acc ++ tagTimesReached g)) acc).map Prod.fst ↔
          k ∈ acc.map Prod.fst ∨ ∃ g ∈ gs, k ∈ g) := by
      intro gs
      induction gs with
      | nil => intro acc; simp
      | cons g gs ih =>
        intro acc
        rw [List.foldl_cons, ih (groupSumTimesReached (acc ++ tagTimesReached g)),
          groupSum_keys, List.mem_dedup, List.map_append, List.mem_append, tag_keys]
        constructor
        · rintro ((h | h) | ⟨g', hg', hk⟩)
          · exact Or.inl h
          · exact Or.inr ⟨g, List.mem_cons_self _ _, h⟩
          · exact Or.inr ⟨g', List.mem_cons_of_mem _ hg', hk⟩
        · rintro (h | ⟨g', hg', hk⟩)
          · exact Or.inl (Or.inl h)
          · rcases List.mem_cons.mp hg' with h1 | h1
            · exact Or.inl (Or.inr (h1 ▸ hk))
            · exact Or.inr ⟨g', h1, hk⟩
    rw [show combineODFiles (f :: rest) = rest.foldl
      (fun acc g => groupSumTimesReached (acc ++ tagTimesReached g))
      (tagTimesReached f) from rfl, key, tag_keys]
    constructor
    · rintro (h | ⟨g', hg', hk⟩)
      · exact ⟨f, List.mem_cons_self _ _, h⟩
      · exact ⟨g', List.mem_cons_of_mem _ hg', hk⟩
    · rintro ⟨f', hf', hk⟩
      rcases List.mem_cons.mp hf' with h1 | h1
      · exact Or.inl (h1 ▸ hk)
      · exact Or.inr ⟨f', h1, hk⟩

theorem combine_keys_nodup (files : List (List ODPair))
    (h : ∀ f ∈ files, f.Nodup) : ((combineODFiles files).map Prod.fst).Nodup := by
  cases files with
  | nil => simp [combineODFiles]
  | cons f rest =>
    cases rest with
    | nil =>
      rw [show combineODFiles [f] = tagTimesReached f from rfl, tag_keys]
      exact h f (List.mem_cons_self _ _)
    | cons g rest' =>
      have key : ∀ (gs : List (List ODPair)) (acc : List (ODPair × Nat)), gs ≠ [] →
          ∃ rows, gs.foldl
            (fun acc g => groupSumTimesReached (acc ++ tagTimesReached g)) acc =
            groupSumTimesReached rows := by
        intro gs
        induction gs with
        | nil => intro acc hne; exact absurd rfl hne
        | cons g1 gs1 ih =>
          intro acc _
          cases gs1 with
          | nil => exact ⟨acc ++ tagTimesReached g1, rfl⟩
          | cons g2 gs2 =>
            rw [List.foldl_cons]
            exact ih (groupSumTimesReached (acc ++ tagTimesReached g1)) (by simp)
      obtain ⟨rows, hrows⟩ := key (g :: rest') (tagTimesReached f) (by simp)
      rw [show combineODFiles (f :: g :: rest') = (g :: rest').foldl
        (fun acc g => groupSumTimesReached (acc ++ tagTimesReached g))
        (tagTimesReached f) from rfl, hrows]
      exact groupSum_keys_nodup rows

theorem row_eq_keySum {rows : List (ODPair × Nat)}
    (h : (rows.map Prod.fst).Nodup) :
    ∀ row ∈ rows, keySum rows row.1 = row.2 := by
  induction rows with
  | nil => intro row hrow; cases hrow
  | cons r t ih =>
    intro row hrow
    rw [List.map_cons] at h
    rcases List.nodup_cons.mp h with ⟨hr, ht⟩
    rw [keySum_cons]
    rcases List.mem_cons.mp hrow with h1 | h1
    · subst h1
      rw [if_pos rfl, keySum_eq_zero hr, Nat.add_zero]
    · have hne : r.1 ≠ row.1 := fun hh =>
        hr (hh ▸ List.mem_map.mpr ⟨row, h1, rfl⟩)
      rw [if_neg hne, Nat.zero_add]
      exact ih ht row h1

theorem countP_eq_ite_of_nodup {f : List ODPair} (h : f.Nodup) (k : ODPair) :
    f.countP (fun x => decide (x = k)) = if k ∈ f then 1 else 0 := by
  induction f with
  | nil => simp
  | cons a t ih =>
    rcases List.nodup_cons.mp h with ⟨ha, ht⟩
    rw [List.countP_cons, ih ht]
    by_cases hak : a = k
    · subst hak
      simp [ha]
    · have hka : ¬k = a := fun hh => hak hh.symm
      simp [hak, List.mem_cons, hka]

theorem keySum_combine_reach (files : List (List ODPair))
    (hnd : ∀ f ∈ files, f.Nodup) (o d : Int) :
    keySum (combineODFiles files) (o, d) = reachCount files o d := by
  rw [keySum_combine, reachCount]
  induction files with
  | nil => rfl
  | cons f rest ih =>
    rw [List.map_cons, List.sum_cons, List.countP_cons,
      ih (fun g hg => hnd g (List.mem_cons_of_mem f hg)),
      countP_eq_ite_of_nodup (hnd f (List.mem_cons_self _ _)) (o, d)]
    by_cases h : (o, d) ∈ f
    · simp [h, Nat.add_comm]
    · simp [h]

/-! ### Claim C2 (confirmed): decile thresholds are real-valued `>=`
comparisons -/

/-- C2: for every decile `perc` and every origin, `DsAL{perc}Perc` equals
the sum of weights of the destinations whose reach-count (number of
departure instants at which the pair appeared in a successful result file)
is at least the real-valued, un-rounded threshold
`sampleCount * perc / 100` (so a reach-count exactly equal to a fractional
threshold such as `1.0` for 10 samples at `p = 10` qualifies, as the last
conjunct makes explicit: the comparison is exactly
`sampleCount * perc ≤ 100 * count`); and `PsAL{perc}Perc` is `100 ×` that
sum divided by the total destination weight.  Hypotheses: each result file
lists a pair at most once, destinations appearing in result files are rows
of the destinations table, and the table has no duplicate ids. -/
theorem dsalPerc_spec (files : List (List ODPair)) (w : Int → ℚ) (destTable : List Int)
    (sampleCount perc : Nat) (o : Int)
    (hfilesNodup : ∀ f ∈ files, f.Nodup)
    (hdest : ∀ f ∈ files, ∀ row ∈ f, row.2 ∈ destTable)
    (hdestNodup : destTable.Nodup)
    (hsample : 1 ≤ sampleCount) (hperc : 10 ≤ perc) :
    dsalPerc files w sampleCount perc o =
      ((destTable.filter (fun d =>
        decide ((sampleCount * perc / 100 : ℚ) ≤ (reachCount files o d : ℚ)))).map w).sum ∧
    psalPerc files w destTable sampleCount perc o =
      100 * ((destTable.filter (fun d =>
        decide ((sampleCount * perc / 100 : ℚ) ≤ (reachCount files o d : ℚ)))).map w).sum /
        totalDestWeight destTable w ∧
    (∀ count : Nat,
      ((sampleCount * perc / 100 : ℚ) ≤ (count : ℚ) ↔ sampleCount * perc ≤ 100 * count)) := by
  have hthr : (0 : ℚ) < (sampleCount : ℚ) * (perc : ℚ) / 100 := by
    apply div_pos _ (by norm_num)
    have h1 : (1 : ℚ) ≤ (sampleCount : ℚ) := by exact_mod_cast hsample
    have h2 : (10 : ℚ) ≤ (perc : ℚ) := by exact_mod_cast hperc
    nlinarith
  have hknodup := combine_keys_nodup files hfilesNodup
  set A := ((combineODFiles files).filter (fun row => decide (row.1.1 = o) &&
    decide ((sampleCount * perc / 100 : ℚ) ≤ (row.2 : ℚ)))).map
    (fun row => row.1.2) with hA
  set B := destTable.filter (fun d =>
    decide ((sampleCount * perc / 100 : ℚ) ≤ (reachCount files o d : ℚ))) with hB
  have hmain : dsalPerc files w sampleCount perc o = (A.map w).sum := by
    rw [hA, dsalPerc, List.map_map]
    rfl
  have hAnodup : A.Nodup := by
    rw [hA]
    have hnodfil : (((combineODFiles files).filter (fun row => decide (row.1.1 = o) &&
        decide ((sampleCount * perc / 100 : ℚ) ≤ (row.2 : ℚ)))).map Prod.fst).Nodup :=
      List.Nodup.sublist ((List.filter_sublist _).map Prod.fst) hknodup
    apply List.Nodup.map_on ?_ (List.Nodup.of_map Prod.fst hnodfil)
    intro x hx y hy hxy
    have hxc := List.mem_filter.mp hx
    have hyc := List.mem_filter.mp hy
    have hxo : x.1.1 = o := by
      have h := hxc.2
      simp only [Bool.and_eq_true, decide_eq_true_eq] at h
      exact h.1
    have hyo : y.1.1 = o := by
      have h := hyc.2
      simp only [Bool.and_eq_true, decide_eq_true_eq] at h
      exact h.1
    exact List.inj_on_of_nodup_map hnodfil hx hy (Prod.ext (hxo.trans hyo.symm) hxy)
  have hBnodup : B.Nodup := hdestNodup.filter _
  have hmemAB : ∀ d : Int, d ∈ A ↔ d ∈ B := by
    intro d
    constructor
    · intro hd
      obtain ⟨row, hrowf, rfl⟩ := List.mem_map.mp hd
      obtain ⟨hrow, hcond⟩ := List.mem_filter.mp hrowf
      simp only [Bool.and_eq_true, decide_eq_true_eq] at hcond
      obtain ⟨ho, hthr'⟩ := hcond
      have hkeys : row.1 ∈ (combineODFiles files).map Prod.fst :=
        List.mem_map.mpr ⟨row, hrow, rfl⟩
      obtain ⟨f, hf, hkf⟩ := (mem_keys_combine files row.1).mp hkeys
      have hdT : row.1.2 ∈ destTable := hdest f hf row.1 hkf
      have hreach : reachCount files o row.1.2 = row.2 := by
        calc reachCount files o row.1.2 = reachCount files row.1.1 row.1.2 := by rw [ho]
          _ = keySum (combineODFiles files) (row.1.1, row.1.2) :=
            (keySum_combine_reach files hfilesNodup _ _).symm
          _ = keySum (combineODFiles files) row.1 := by rw [Prod.mk.eta]
          _ = row.2 := row_eq_keySum hknodup row hrow
      rw [hB, List.mem_filter]
      refine ⟨hdT, ?_⟩
      simp only [decide_eq_true_eq, hreach]
      exact hthr'
    · intro hd
      obtain ⟨hdT, hcond⟩ := List.mem_filter.mp hd
      simp only [decide_eq_true_eq] at hcond
      have hpos : 0 < reachCount files o d := by
        by_contra h0
        push_neg at h0
        have h00 : reachCount files o d = 0 := by omega
        rw [h00] at hcond
        norm_num at hcond
        exact absurd (lt_of_lt_of_le hthr hcond) (by norm_num)
      obtain ⟨f, hf, hdec⟩ := List.countP_pos_iff.mp hpos
      have hpair : ((o, d) : ODPair) ∈ f := of_decide_eq_true hdec
      have hkeys : ((o, d) : ODPair) ∈ (combineODFiles files).map Prod.fst :=
        (mem_keys_combine files (o, d)).mpr ⟨f, hf, hpair⟩
      obtain ⟨row, hrow, hrowk⟩ := List.mem_map.mp hkeys
      have hcount : row.2 = reachCount files o d := by
        calc row.2 = keySum (combineODFiles files) row.1 :=
            (row_eq_keySum hknodup row hrow).symm
          _ = keySum (combineODFiles files) (o, d) := by rw [hrowk]
          _ = reachCount files o d := keySum_combine_reach files hfilesNodup o d
      rw [hA]
      apply List.mem_map.mpr
      refine ⟨row, List.mem_filter.mpr ⟨hrow, ?_⟩, ?_⟩
      · simp only [Bool.and_eq_true, decide_eq_true_eq]
        refine ⟨?_, ?_⟩
        · have := congrArg Prod.fst hrowk
          simpa using this
        · rw [hcount]
          exact hcond
      · have := congrArg Prod.snd hrowk
        simpa using this
  have hperm : A.Perm B :=
    List.perm_of_nodup_nodup_toFinset_eq hAnodup hBnodup (by
      ext x
      simp only [List.mem_toFinset]
      exact hmemAB x)
  refine ⟨?_, ?_, ?_⟩
  · rw [hmain]
    exact (hperm.map w).sum_eq
  · rw [psalPerc, hmain, (hperm.map w).sum_eq]
  · intro count
    rw [div_le_iff₀ (by norm_num : (0 : ℚ) < 100)]
    constructor
    · intro h
      have hc : sampleCount * perc ≤ count * 100 := by exact_mod_cast h
      omega
    · intro h
      have hc : sampleCount * perc ≤ count * 100 := by omega
      exact_mod_cast hc

theorem dsalPerc_spec_witness :
    dsalPerc [[(1, 2)]] (fun _ => (1 : ℚ)) 10 10 1 = 1 := by
  have h := (dsalPerc_spec [[(1, 2)]] (fun _ => (1 : ℚ)) [2] 10 10 1
    (by decide) (by decide) (by decide) (by norm_num) (by norm_num)).1
  rw [h]
  norm_num [reachCount, List.countP_cons]

/-! ### Claim C6 (confirmed): origins absent from all result files get an
all-zero statistics row -/

/-- C6: an origin of the Origins table that appears in no successful result
file is absent from the combined dataframe, hits the `KeyError` branch of
the output cursor loop, and receives a row whose 20 statistic fields
(`TotalDests`, `PercDests`, and `DsAL{p}Perc`/`PsAL{p}Perc` for each of the
nine deciles) are all exactly `0`. -/
theorem absentOrigin_zero_row (files : List (List ODPair)) (w : Int → ℚ)
    (destTable : List Int) (sampleCount : Nat) (o : Int)
    (h : ∀ f ∈ files, ∀ row ∈ f, row.1 ≠ o) :
    accessibilityRow files w destTable sampleCount o = List.replicate 20 0 := by
  rw [accessibilityRow, if_neg]
  intro hpres
  rw [originPresent, List.any_eq_true] at hpres
  obtain ⟨row, hrow, hdec⟩ := hpres
  have ho : row.1.1 = o := of_decide_eq_true hdec
  have hkeys : row.1 ∈ (combineODFiles files).map Prod.fst :=
    List.mem_map.mpr ⟨row, hrow, rfl⟩
  obtain ⟨f, hf, hkf⟩ := (mem_keys_combine files row.1).mp hkeys
  exact h f hf row.1 hkf ho

theorem absentOrigin_zero_row_witness :
    accessibilityRow [[(2, 3)]] (fun _ => (1 : ℚ)) [3] 4 1 = List.replicate 20 0 :=
  absentOrigin_zero_row [[(2, 3)]] (fun _ => (1 : ℚ)) [3] 4 1 (by decide)

/-! ### Claim C8 (corrected: needs nonnegative weights): decile statistics
are non-increasing in the decile -/

/-- C8 counterexample: with a negative destination weight the claim fails
as stated: one result file containing the pair `(1, 5)`, weight `-1`
everywhere and 10 time samples give `DsAL10Perc = -1 < 0 = DsAL20Perc` for
origin 1, so `DsAL{p}Perc` increases from `p = 10` to `p = 20`. -/
theorem dsal_monotone_counterexample :
    ¬(dsalPerc [[((1 : Int), (5 : Int))]] (fun _ => (-1 : ℚ)) 10 20 1 ≤
      dsalPerc [[((1 : Int), (5 : Int))]] (fun _ => (-1 : ℚ)) 10 10 1) := by
  have h20 : dsalPerc [[((1 : Int), (5 : Int))]] (fun _ => (-1 : ℚ)) 10 20 1 = 0 := by
    rw [dsalPerc]
    norm_num [combineODFiles, tagTimesReached, List.filter_cons]
  have h10 : dsalPerc [[((1 : Int), (5 : Int))]] (fun _ => (-1 : ℚ)) 10 10 1 = -1 := by
    rw [dsalPerc]
    norm_num [combineODFiles, tagTimesReached, List.filter_cons]
  rw [h20, h10]
  norm_num

/-- C8 (amended with nonnegative weights): for fixed result files,
nonnegative weights and sample count, `DsAL{p}Perc` and `PsAL{p}Perc` are
non-increasing as the decile `p` increases, because the real-valued
qualifying threshold `sampleCount * p / 100` is non-decreasing in `p` and
the weights of qualifying destinations are summed. -/
theorem dsalPerc_antitone (files : List (List ODPair)) (w : Int → ℚ)
    (destTable : List Int) (sampleCount perc perc' : Nat) (o : Int)
    (hpp : perc ≤ perc') (hw : ∀ d, 0 ≤ w d) :
    dsalPerc files w sampleCount perc' o ≤ dsalPerc files w sampleCount perc o ∧
    psalPerc files w destTable sampleCount perc' o ≤
      psalPerc files w destTable sampleCount perc o := by
  have himp : ∀ row : ODPair × Nat,
      (decide (row.1.1 = o) &&
        decide ((sampleCount * perc' / 100 : ℚ) ≤ (row.2 : ℚ))) = true →
      (decide (row.1.1 = o) &&
        decide ((sampleCount * perc / 100 : ℚ) ≤ (row.2 : ℚ))) = true := by
    intro row hrow
    simp only [Bool.and_eq_true, decide_eq_true_eq] at hrow ⊢
    refine ⟨hrow.1, le_trans ?_ hrow.2⟩
    have hq : (perc : ℚ) ≤ (perc' : ℚ) := by exact_mod_cast hpp
    have hs : (0 : ℚ) ≤ (sampleCount : ℚ) := by positivity
    gcongr
  have hsub := List.monotone_filter_right (combineODFiles files) himp
  have hd : dsalPerc files w sampleCount perc' o ≤ dsalPerc files w sampleCount perc o := by
    rw [dsalPerc, dsalPerc]
    apply List.Sublist.sum_le_sum (hsub.map _)
    intro x hx
    obtain ⟨row, _, rfl⟩ := List.mem_map.mp hx
    exact hw row.1.2
  refine ⟨hd, ?_⟩
  rw [psalPerc, psalPerc]
  have hT : 0 ≤ totalDestWeight destTable w := by
    apply List.sum_nonneg
    intro x hx
    obtain ⟨d, _, rfl⟩ := List.mem_map.mp hx
    exact hw d
  rcases eq_or_lt_of_le hT with hT0 | hT0
  · rw [← hT0]
    simp
  · rw [div_le_div_iff_of_pos_right hT0]
    exact mul_le_mul_of_nonneg_left hd (by norm_num)

theorem dsalPerc_antitone_witness :
    dsalPerc [[(1, 2)]] (fun _ => (1 : ℚ)) 10 20 1 ≤
      dsalPerc [[(1, 2)]] (fun _ => (1 : ℚ)) 10 10 1 ∧
    psalPerc [[(1, 2)]] (fun _ => (1 : ℚ)) [2] 10 20 1 ≤
      psalPerc [[(1, 2)]] (fun _ => (1 : ℚ)) [2] 10 10 1 :=
  dsalPerc_antitone [[(1, 2)]] (fun _ => (1 : ℚ)) [2] 10 10 20 1
    (by norm_num) (fun d => by norm_num)

/-! ### Claim C4 (confirmed): a failed solve returns a failed outcome and
is never collected -/

/-- C4: when the routing engine reports `solveSucceeded = false`,
`ODCostMatrix.solve` returns the job-outcome dictionary with
`solveSucceeded = false` and the consolidated diagnostic text, writes no
result file, leaves `outputLines` empty, and the scheduler appends nothing
to `od_line_files` for that job (so the chunk contributes no rows to any
aggregate built from `od_line_files`). -/
theorem failedSolve_not_collected (msgs : List String) (outFilename : String) :
    (solveFinish false msgs outFilename).1.solveSucceeded = false ∧
    (solveFinish false msgs outFilename).1.solveMessages = consolidateMessages msgs ∧
    (solveFinish false msgs outFilename).1.outputLines = "" ∧
    (solveFinish false msgs outFilename).2 = none ∧
    (∀ odLineFiles : List String,
      collectLineFiles odLineFiles (solveFinish false msgs outFilename).1 = odLineFiles) :=
  ⟨rfl, rfl, rfl, rfl, fun _ => rfl⟩

/-! ### Claim C7 (confirmed): a raising `future.result()` aborts the run -/

/-- C7: if any `future.result()` retrieval raises, the completion loop
re-raises that exception (the one raised by the first such future it
processes, which is then an exception that indeed occurred), and it never
returns normally when some retrieval raised — infrastructure failures are
never swallowed or converted into routine failures. -/
theorem workerException_reraised {ε : Type} (rs : List (Except ε JobResult)) :
    (∀ e : ε, Except.error e ∈ rs →
      ∀ acc, ∃ e', gatherResults rs acc = Except.error e' ∧ Except.error e' ∈ rs) ∧
    (∀ acc files, gatherResults rs acc = Except.ok files →
      ∀ e : ε, Except.error e ∉ rs) := by
  induction rs with
  | nil =>
    constructor
    · intro e he
      cases he
    · intro acc files _ e he
      cases he
  | cons x rest ih =>
    cases x with
    | error e0 =>
      constructor
      · intro e _ acc
        exact ⟨e0, rfl, List.mem_cons_self _ _⟩
      · intro acc files h
        simp [gatherResults] at h
    | ok r =>
      constructor
      · intro e he acc
        rcases List.mem_cons.mp he with h | h
        · exact Except.noConfusion h
        · obtain ⟨e', he', hmem⟩ := ih.1 e h (collectLineFiles acc r)
          exact ⟨e', by simpa [gatherResults] using he', List.mem_cons_of_mem _ hmem⟩
      · intro acc files h e he
        rcases List.mem_cons.mp he with h1 | h1
        · exact Except.noConfusion h1
        · exact ih.2 (collectLineFiles acc r) files
            (by simpa [gatherResults] using h) e h1

theorem workerException_reraised_witness :
    ∃ e', gatherResults
        [Except.ok { solveSucceeded := true, solveMessages := "", outputLines := "f1" },
         Except.error "boom"] ([] : List String) = Except.error e' ∧
      (Except.error e' : Except String JobResult) ∈
        [Except.ok { solveSucceeded := true, solveMessages := "", outputLines := "f1" },
         Except.error "boom"] :=
  (workerException_reraised _).1 "boom" (by simp) []

/-! ### Claim C9 (confirmed): no successful result file means the
aggregators are skipped with a warning -/

/-- C9: when `od_line_files` is empty after all jobs complete, the
post-processing step of `solve_od_in_parallel` invokes neither aggregator
for either tool; it takes the warning branch (and, being a total function,
completes without raising). -/
theorem emptyResults_skips_aggregation :
    ∀ tool : ODTool, postProcess tool [] = PostProcessAction.warnAllSolvesFailed := by
  intro tool
  cases tool <;> rfl

/-! ### Claim C3 (confirmed): aggregated output is independent of chunk
completion order -/

theorem odLineFilesOf_eq (results : List JobResult) :
    odLineFilesOf results =
      (results.filter (fun r => r.solveSucceeded)).map (fun r => r.outputLines) := by
  have key : ∀ (rs : List JobResult) (acc : List String),
      rs.foldl collectLineFiles acc =
        acc ++ (rs.filter (fun r => r.solveSucceeded)).map (fun r => r.outputLines) := by
    intro rs
    induction rs with
    | nil => intro acc; simp
    | cons r rest ih =>
      intro acc
      rw [List.foldl_cons, ih, List.filter_cons]
      by_cases h : r.solveSucceeded
      · simp [collectLineFiles, h]
      · simp [collectLineFiles, h]
  simpa using key results []

theorem sortedLineFiles_sorted (l : List String) :
    (sortedLineFiles l).Sorted (· ≤ ·) := by
  have h := @List.sorted_mergeSort String (fun a b : String => decide (a ≤ b))
    (fun a b c hab hbc =>
      decide_eq_true (le_trans (of_decide_eq_true hab) (of_decide_eq_true hbc)))
    (fun a b => by
      rcases le_total a b with h | h
      · simp [h]
      · simp [h]) l
  exact h.imp (fun hab => of_decide_eq_true hab)

/-- C3: the aggregated statistics are a function only of the multiset of
job outcomes, not of chunk completion order: for any two completion orders
of the same outcomes, the sorted successful result-file list handed to the
aggregators is identical, hence so is either aggregator's output (for any
file contents and any aggregation parameters). -/
theorem completionOrder_independent (results₁ results₂ : List JobResult)
    (hperm : results₁.Perm results₂) :
    finalResultFiles results₁ = finalResultFiles results₂ ∧
    (∀ (contents : String → List ODPair) (w : Int → ℚ) (sampleCount perc : Nat) (o : Int),
      dsalPerc ((finalResultFiles results₁).map contents) w sampleCount perc o =
        dsalPerc ((finalResultFiles results₂).map contents) w sampleCount perc o) ∧
    (∀ (contents : String → TTResultFile) (originRanges : List (Int × Int)),
      travelTimeStatistics originRanges ((finalResultFiles results₁).map contents) =
        travelTimeStatistics originRanges ((finalResultFiles results₂).map contents)) := by
  have hfileperm : (odLineFilesOf results₁).Perm (odLineFilesOf results₂) := by
    rw [odLineFilesOf_eq, odLineFilesOf_eq]
    exact (hperm.filter _).map _
  have hperm' : (finalResultFiles results₁).Perm (finalResultFiles results₂) := by
    unfold finalResultFiles sortedLineFiles
    exact ((List.mergeSort_perm _ _).trans hfileperm).trans
      (List.mergeSort_perm _ _).symm
  have hfiles : finalResultFiles results₁ = finalResultFiles results₂ :=
    List.eq_of_perm_of_sorted hperm' (sortedLineFiles_sorted _) (sortedLineFiles_sorted _)
  exact ⟨hfiles, fun contents w s p o => by rw [hfiles], fun contents rs => by rw [hfiles]⟩

/-! ### Claim C5 (confirmed): travel-time statistics per origin-range group -/

/-- C5: in travel-time mode, every `(OriginOID, DestinationOID)` pair
appearing in the result files of an origin-range group (the files whose
`ODLines_O_{low}_{high}_` filename prefix matches that range) receives an
output row holding the count, min, max and mean of `Total_Time` over all
samples in that group's files; the output table is built group by group in
origin-range order, each group appended before the next is read (which is
the shape of `travelTimeStatistics` as a `flatMap` over `originRanges`). -/
theorem travelTimeStats_row (originRanges : List (Int × Int))
    (odLineFiles : List TTResultFile) (r : Int × Int) (k : ODPair)
    (hr : r ∈ originRanges)
    (hk : k ∈ (ttGroupRows odLineFiles r).map Prod.fst) :
    (k, ((ttTimes (ttGroupRows odLineFiles r) k).length,
      listMin (ttTimes (ttGroupRows odLineFiles r) k),
      listMax (ttTimes (ttGroupRows odLineFiles r) k),
      (ttTimes (ttGroupRows odLineFiles r) k).sum /
        ((ttTimes (ttGroupRows odLineFiles r) k).length : ℚ))) ∈
      travelTimeStatistics originRanges odLineFiles := by
  unfold travelTimeStatistics
  rw [List.mem_flatMap]
  refine ⟨r, hr, ?_⟩
  have hrows : ttGroupRows odLineFiles r ≠ [] := by
    intro h
    rw [h] at hk
    cases hk
  have hfiles : ¬(ttGroupFiles odLineFiles r).isEmpty := by
    intro h
    apply hrows
    rw [ttGroupRows, List.isEmpty_iff.mp h]
    rfl
  rw [if_neg (by simpa using hfiles)]
  unfold ttStatsOfGroup
  exact List.mem_map.mpr ⟨k, List.mem_dedup.mpr hk, rfl⟩

theorem travelTimeStats_row_witness :
    (((1, 7) : ODPair), (2, (10 : ℚ), (20 : ℚ), (15 : ℚ))) ∈
      travelTimeStatistics [(1, 100)]
        [{ originRange := (1, 100), rows := [((1, 7), 10)] },
         { originRange := (1, 100), rows := [((1, 7), 20)] }] := by
  have h := travelTimeStats_row [(1, 100)]
    [{ originRange := (1, 100), rows := [((1, 7), 10)] },
     { originRange := (1, 100), rows := [((1, 7), 20)] }]
    (1, 100) (1, 7) (List.mem_singleton_self _) (by decide)
  have he : ((((1 : Int), (7 : Int)) : ODPair),
      ((ttTimes (ttGroupRows
          [{ originRange := (1, 100), rows := [((1, 7), 10)] },
           { originRange := (1, 100), rows := [((1, 7), 20)] }] (1, 100)) (1, 7)).length,
        listMin (ttTimes (ttGroupRows
          [{ originRange := (1, 100), rows := [((1, 7), 10)] },
           { originRange := (1, 100), rows := [((1, 7), 20)] }] (1, 100)) (1, 7)),
        listMax (ttTimes (ttGroupRows
          [{ originRange := (1, 100), rows := [((1, 7), 10)] },
           { originRange := (1, 100), rows := [((1, 7), 20)] }] (1, 100)) (1, 7)),
        (ttTimes (ttGroupRows
          [{ originRange := (1, 100), rows := [((1, 7), 10)] },
           { originRange := (1, 100), rows := [((1, 7), 20)] }] (1, 100)) (1, 7)).sum /
          ((ttTimes (ttGroupRows
            [{ originRange := (1, 100), rows := [((1, 7), 10)] },
             { originRange := (1, 100), rows := [((1, 7), 20)] }] (1, 100)) (1, 7)).length : ℚ))) =
      (((1, 7) : ODPair), (2, (10 : ℚ), (20 : ℚ), (15 : ℚ))) := by
    norm_num [ttTimes, ttGroupRows, ttGroupFiles, listMin, listMax]
  exact he ▸ h

theorem completionOrder_independent_witness :
    finalResultFiles
        [{ solveSucceeded := true, solveMessages := "", outputLines := "b.csv" },
         { solveSucceeded := false, solveMessages := "m", outputLines := "" },
         { solveSucceeded := true, solveMessages := "", outputLines := "a.csv" }] =
      finalResultFiles
        [{ solveSucceeded := true, solveMessages := "", outputLines := "a.csv" },
         { solveSucceeded := true, solveMessages := "", outputLines := "b.csv" },
         { solveSucceeded := false, solveMessages := "m", outputLines := "" }] :=
  (completionOrder_independent _ _ (by decide)).1

end ParallelODCM
